import Mathlib

/-!
Shallow embedding of the core transform-and-batch logic of the
`seller-apis` repository (files `seller.py` and `market.py`): the stock
and price builders (`create_stocks`, `create_prices`), the price
converter (`price_conversion`), the batch splitter (`divide`) and the
pagination loops (`get_offer_ids`), together with theorems settling the
frozen claims about them.

Modelling conventions:
- a Python supplier record (a row of `watch_remnants`) is a `Watch`
  record whose fields are the already-stringified values the code reads
  (`str(watch.get("Код"))` etc.);
- Python's mutable `offer_ids` list argument is threaded explicitly:
  a function that may mutate it returns the final list alongside its
  result;
- fallible code (Python `int(...)`, which raises `ValueError` on a
  malformed string) is threaded through `Option`: `none` models a raised
  exception propagating out of the builder;
- HTTP pagination is modelled by the finite list of page responses the
  provider serves, consumed in order (advancing the cursor each
  iteration is consuming the next element).
-/

/-- The numeric value of a list of decimal digit characters, most
significant first (what Python's `int` computes on a digit string). -/
def digitsVal (ds : List Char) : Nat :=
  ds.foldl (fun n c => 10 * n + (c.toNat - '0'.toNat)) 0

/-- Model of Python's `int(s)` on a string: an optional sign followed by
a nonempty run of decimal digits parses to the integer, anything else
raises (`none`).  (Surrounding whitespace and underscore separators,
which CPython also tolerates, do not occur in this program's data and
are not modelled.) -/
def pyInt? (s : String) : Option Int :=
  match s.data with
  | [] => none
  | '-' :: ds => if ds ≠ [] ∧ ds.all Char.isDigit then some (-(digitsVal ds : Int)) else none
  | '+' :: ds => if ds ≠ [] ∧ ds.all Char.isDigit then some (digitsVal ds) else none
  | ds => if ds.all Char.isDigit then some (digitsVal ds) else none

/-- Model of Python's `str.split(sep)` for a one-character separator, on
the character list of the string: splits at every occurrence of `sep`;
the result is always nonempty and its head is the prefix before the
first occurrence. -/
def pySplit (sep : Char) : List Char → List (List Char)
  | [] => [[]]
  | c :: cs =>
    if c = sep then [] :: pySplit sep cs
    else
      match pySplit sep cs with
      | [] => [[c]]
      | r :: rs => (c :: r) :: rs

/-- One supplier record of `watch_remnants` (a row of the `ostatki.xls`
spreadsheet as produced by `download_stock`), holding the three fields
the builders read: `"Код"` (product code), `"Количество"` (quantity
string) and `"Цена"` (localized price string).  The code reads the code
and quantity through `str(...)`, so all fields are modelled as the
strings the builders actually see. -/
structure Watch where
  code : String
  quantity : String
  price : String
deriving DecidableEq, Repr

namespace Seller

/-- One entry of the stock list built by `seller.create_stocks`:
`{"offer_id": ..., "stock": ...}`. -/
structure StockRec where
  offer_id : String
  stock : Int
deriving DecidableEq, Repr

/-- One entry of the price list built by `seller.create_prices`; the
first, second and fourth fields are the constants the source writes. -/
structure PriceRec where
  auto_action_enabled : String
  currency_code : String
  offer_id : String
  old_price : String
  price : String
deriving DecidableEq, Repr

/-- The stock-count policy applied to a matched record's quantity string
(the `if`/`elif`/`else` chain of `create_stocks`, identical in
`seller.py` and `market.py`): `">10"` gives 100, `"1"` gives 0, anything
else is passed to `int(...)`, whose failure (`none`) models the raised
`ValueError`. -/
def stockCount (q : String) : Option Int :=
  if q = ">10" then some 100
  else if q = "1" then some 0
  else pyInt? q

/-- The first loop of `seller.create_stocks`: walk the supplier records
in order; a record whose code is in the current `offer_ids` list emits a
stock record and removes the code from the list (`offer_ids.remove`
deletes the first occurrence, i.e. `List.erase`); a failing quantity
parse aborts the whole call (`none`).  Returns the emitted records and
the remaining (mutated) offer-id list. -/
def create_stocksAux : List Watch → List String → List StockRec →
    Option (List StockRec × List String)
  | [], offer_ids, acc => some (acc, offer_ids)
  | w :: ws, offer_ids, acc =>
    if w.code ∈ offer_ids then
      match stockCount w.quantity with
      | none => none
      | some st =>
          create_stocksAux ws (offer_ids.erase w.code)
            (acc ++ [{ offer_id := w.code, stock := st }])
    else create_stocksAux ws offer_ids acc

/-- `seller.create_stocks`: the matching loop above, then one zero-stock
record per offer id still left in the (mutated) list.  The second
component of the result is the final state of the caller's `offer_ids`
list (the second loop does not mutate it further). -/
def create_stocks (watch_remnants : List Watch) (offer_ids : List String) :
    Option (List StockRec × List String) :=
  match create_stocksAux watch_remnants offer_ids [] with
  | none => none
  | some (stocks, rest) =>
      some (stocks ++ rest.map (fun o => { offer_id := o, stock := 0 }), rest)

/-- `seller.price_conversion`: `re.sub("[^0-9]", "", price.split(".")[0])` —
take the part before the first `'.'` and keep only the decimal digits. -/
def price_conversion (price : String) : String :=
  String.mk (((pySplit '.' price.data).headD []).filter Char.isDigit)

/-- `seller.create_prices`: for each supplier record whose code is in
`offer_ids`, emit a price record with the converted price; the loop
never mutates `offer_ids`, so the threaded list is returned unchanged. -/
def create_prices (watch_remnants : List Watch) (offer_ids : List String) :
    List PriceRec × List String :=
  (watch_remnants.filterMap (fun w =>
      if w.code ∈ offer_ids then
        some { auto_action_enabled := "UNKNOWN", currency_code := "RUB",
               offer_id := w.code, old_price := "0",
               price := price_conversion w.price }
      else none),
   offer_ids)

/-- `seller.divide`: `for i in range(0, len(lst), n): yield lst[i:i+n]`,
materialized eagerly — repeatedly slice off the next `n` elements.
(Python raises on `n == 0`; that branch is returned as `[]` here and all
claims about `divide` assume `n > 0`.) -/
def divide {α : Type} (lst : List α) (n : Nat) : List (List α) :=
  match lst, n with
  | [], _ => []
  | _ :: _, 0 => []
  | a :: as, m + 1 => ((a :: as).take (m + 1)) :: divide ((a :: as).drop (m + 1)) (m + 1)
termination_by lst.length
decreasing_by
  simp only [List.length_drop, List.length_cons]
  omega

/-- The stock-then-price sequence of `seller.main` (lines 275–279):
`create_stocks` receives the `offer_ids` list and mutates it, then
`create_prices` is called with the *same* (now mutated) list object.
Returns the stock list and the price list that `main` goes on to
submit. -/
def mainStocksThenPrices (watch_remnants : List Watch) (offer_ids : List String) :
    Option (List StockRec × List PriceRec) :=
  match create_stocks watch_remnants offer_ids with
  | none => none
  | some (stocks, mutated_ids) =>
      some (stocks, (create_prices watch_remnants mutated_ids).1)

/-- One product item of an Ozon `product/list` page, holding the field
`get_offer_ids` reads. -/
structure Product where
  offer_id : String
deriving DecidableEq, Repr

/-- One decoded Ozon `product/list` response page: its `items`, the
declared `total`, and the `last_id` cursor for the next request. -/
structure Page where
  items : List Product
  total : Nat
  last_id : String
deriving DecidableEq, Repr

/-- The pagination loop of `seller.get_offer_ids`, over the finite list
of pages the provider serves in order: extend the accumulated product
list with the page's items, then stop as soon as the page's declared
`total` equals the accumulated length.  If the served pages run out
before that condition holds, the Python loop would issue yet another
request: modelled as `none`. -/
def get_offer_idsAux : List Page → List Product → Option (List Product)
  | [], _ => none
  | p :: ps, acc =>
      let acc2 := acc ++ p.items
      if p.total = acc2.length then some acc2 else get_offer_idsAux ps acc2

/-- `seller.get_offer_ids`: run the pagination loop starting from the
empty accumulation (and the empty `last_id` cursor, modelled by the
provider serving its first page first), then project each accumulated
product to its `offer_id`. -/
def get_offer_ids (pages : List Page) : Option (List String) :=
  (get_offer_idsAux pages []).map (fun l => l.map Product.offer_id)

/-- The index of the page at which the seller pagination loop stops,
given the item count accumulated so far: the first page whose declared
`total` equals the accumulated count after appending its items. -/
def stopIdx : List Page → Nat → Option Nat
  | [], _ => none
  | p :: ps, acc =>
      if p.total = acc + p.items.length then some 0
      else (stopIdx ps (acc + p.items.length)).map (· + 1)

end Seller

namespace Market

/-- One element of the `items` array of a Yandex Market stock record;
`type` and `updatedAt` are the constants/timestamp the source writes. -/
structure StockItem where
  count : Int
  type : String
  updatedAt : String
deriving DecidableEq, Repr

/-- One entry of the stock list built by `market.create_stocks`. -/
structure StockRec where
  sku : String
  warehouseId : String
  items : List StockItem
deriving DecidableEq, Repr

/-- One entry of the price list built by `market.create_prices`: the
offer id and the price value converted to an integer (`int(...)` applied
to `price_conversion`'s output), with the constant currency. -/
structure PriceRec where
  id : String
  value : Int
  currencyId : String
deriving DecidableEq, Repr

/-- The matching loop of `market.create_stocks`: identical matching and
quantity policy to the seller variant (including the destructive
`offer_ids.remove`), but each emitted record carries the warehouse id
and the timestamp `date` computed once at entry (modelled as a
parameter). -/
def create_stocksAux (warehouse_id date : String) : List Watch → List String →
    List StockRec → Option (List StockRec × List String)
  | [], offer_ids, acc => some (acc, offer_ids)
  | w :: ws, offer_ids, acc =>
    if w.code ∈ offer_ids then
      match Seller.stockCount w.quantity with
      | none => none
      | some st =>
          create_stocksAux warehouse_id date ws (offer_ids.erase w.code)
            (acc ++ [{ sku := w.code, warehouseId := warehouse_id,
                       items := [{ count := st, type := "FIT", updatedAt := date }] }])
    else create_stocksAux warehouse_id date ws offer_ids acc

/-- `market.create_stocks`: the matching loop, then one zero-count
record per offer id left in the mutated list. -/
def create_stocks (watch_remnants : List Watch) (offer_ids : List String)
    (warehouse_id date : String) : Option (List StockRec × List String) :=
  match create_stocksAux warehouse_id date watch_remnants offer_ids [] with
  | none => none
  | some (stocks, rest) =>
      some (stocks ++ rest.map (fun o =>
              { sku := o, warehouseId := warehouse_id,
                items := [{ count := 0, type := "FIT", updatedAt := date }] }), rest)

/-- `market.create_prices`: for each supplier record whose code is in
`offer_ids`, emit a price record whose value is
`int(price_conversion(watch.get("Цена")))`; a failing conversion (the
digit string is empty) raises, modelled by `none` aborting the call.
The loop never mutates `offer_ids`. -/
def create_prices : List Watch → List String → Option (List PriceRec)
  | [], _ => some []
  | w :: ws, offer_ids =>
    if w.code ∈ offer_ids then
      match pyInt? (Seller.price_conversion w.price) with
      | none => none
      | some v =>
          (create_prices ws offer_ids).map
            (fun rest => { id := w.code, value := v, currencyId := "RUR" } :: rest)
    else create_prices ws offer_ids

/-- One entry of `offerMappingEntries` in a Yandex Market page, holding
the field `get_offer_ids` reads (`product.get("offer").get("shopSku")`). -/
structure Entry where
  shopSku : String
deriving DecidableEq, Repr

/-- One decoded Yandex Market `offer-mapping-entries` response page: its
entries and the `nextPageToken` cursor (`""` models an empty or absent
token, which Python's `if not page` treats as the stop signal). -/
structure Page where
  entries : List Entry
  nextPageToken : String
deriving DecidableEq, Repr

/-- The pagination loop of `market.get_offer_ids` over the finite list
of pages the provider serves in order: extend the accumulated entry
list, advance the cursor to the page's `nextPageToken`, and stop as soon
as that token is empty.  If the served pages run out first, the Python
loop would issue another request: modelled as `none`. -/
def get_offer_idsAux : List Page → List Entry → Option (List Entry)
  | [], _ => none
  | p :: ps, acc =>
      let acc2 := acc ++ p.entries
      if p.nextPageToken = "" then some acc2 else get_offer_idsAux ps acc2

/-- `market.get_offer_ids`: run the pagination loop starting from the
empty accumulation (and the empty `page` cursor), then project each
accumulated entry to its `shopSku`. -/
def get_offer_ids (pages : List Page) : Option (List String) :=
  (get_offer_idsAux pages []).map (fun l => l.map Entry.shopSku)

/-- The index of the page at which the market pagination loop stops: the
first page whose `nextPageToken` is empty. -/
def stopIdx : List Page → Option Nat
  | [] => none
  | p :: ps =>
      if p.nextPageToken = "" then some 0 else (stopIdx ps).map (· + 1)

end Market

namespace Seller

theorem divide_nil {α : Type} (n : Nat) : divide ([] : List α) n = [] := by
  simp [divide]

theorem divide_cons {α : Type} (lst : List α) (n : Nat) (hl : lst ≠ []) (hn : n ≠ 0) :
    divide lst n = lst.take n :: divide (lst.drop n) n := by
  match lst, n with
  | [], _ => exact absurd rfl hl
  | _ :: _, 0 => exact absurd rfl hn
  | a :: as, m + 1 => rw [divide]

theorem divide_flatten {α : Type} (lst : List α) (n : Nat) :
    n ≠ 0 → (divide lst n).flatten = lst := by
  induction lst, n using divide.induct with
  | case1 n => intro _; simp [divide]
  | case2 a as => intro h; exact absurd rfl h
  | case3 a as m ih =>
      intro _
      rw [divide_cons _ _ (by simp) (by simp)]
      simp only [List.flatten_cons]
      rw [ih (by simp)]
      exact List.take_append_drop _ _

theorem ceil_div_rec (L n : Nat) (hn : 0 < n) (hL : 0 < L) :
    (L + n - 1) / n = (L - n + n - 1) / n + 1 := by
  rcases le_or_lt L n with h | h
  · have h1 : L - n = 0 := by omega
    have h2 : L + n - 1 = (L - 1) + n := by omega
    rw [h1, h2, Nat.add_div_right _ hn, Nat.div_eq_of_lt (by omega),
      Nat.div_eq_of_lt (by omega)]
  · have h2 : L + n - 1 = (L - 1) + n := by omega
    have h3 : L - n + n - 1 = (L - n - 1) + n := by omega
    have h4 : L - 1 = (L - n - 1) + n := by omega
    rw [h2, h3, Nat.add_div_right _ hn, Nat.add_div_right _ hn, h4,
      Nat.add_div_right _ hn]

theorem divide_length {α : Type} (lst : List α) (n : Nat) :
    n ≠ 0 → (divide lst n).length = (lst.length + n - 1) / n := by
  induction lst, n using divide.induct with
  | case1 n =>
      intro hn
      simp only [divide, List.length_nil, Nat.zero_add]
      rw [Nat.div_eq_of_lt (by omega)]
  | case2 a as => intro h; exact absurd rfl h
  | case3 a as m ih =>
      intro _
      rw [divide_cons _ _ (by simp) (by simp), List.length_cons, ih (by simp)]
      simp only [List.length_drop]
      rw [ceil_div_rec ((a :: as).length) (m + 1) (by omega) (by simp)]

theorem divide_ne_nil {α : Type} (lst : List α) (n : Nat) (hl : lst ≠ []) (hn : n ≠ 0) :
    divide lst n ≠ [] := by
  rw [divide_cons _ _ hl hn]
  simp

theorem divide_dropLast_length {α : Type} (lst : List α) (n : Nat) :
    n ≠ 0 → ∀ c ∈ (divide lst n).dropLast, c.length = n := by
  induction lst, n using divide.induct with
  | case1 n => intro _; simp [divide]
  | case2 a as => intro h; exact absurd rfl h
  | case3 a as m ih =>
      intro _
      rw [divide_cons _ _ (by simp) (by simp)]
      by_cases hd : (a :: as).drop (m + 1) = []
      · rw [hd, divide_nil]
        simp
      · rw [List.dropLast_cons_of_ne_nil (divide_ne_nil _ _ hd (by simp))]
        intro c hc
        rcases List.mem_cons.mp hc with rfl | hc
        · have hlen : m + 1 < (a :: as).length := by
            by_contra hle
            push_neg at hle
            exact hd (List.drop_eq_nil_of_le hle)
          simp only [List.length_take]
          omega
        · exact ih (by simp) c hc

theorem divide_chunk_le {α : Type} (lst : List α) (n : Nat) :
    ∀ c ∈ divide lst n, c.length ≤ n := by
  induction lst, n using divide.induct with
  | case1 n => simp [divide]
  | case2 a as => simp [divide]
  | case3 a as m ih =>
      rw [divide_cons _ _ (by simp) (by simp)]
      intro c hc
      rcases List.mem_cons.mp hc with rfl | hc
      · simp only [List.length_take]
        omega
      · exact ih c hc

end Seller

theorem pySplit_ne_nil (sep : Char) (s : List Char) : pySplit sep s ≠ [] := by
  induction s with
  | nil => simp [pySplit]
  | cons c cs ih =>
      simp only [pySplit]
      by_cases h : c = sep
      · simp [h]
      · simp only [h, if_false]
        cases hps : pySplit sep cs with
        | nil => simp
        | cons r rs => simp

theorem pySplit_head (sep : Char) (s : List Char) :
    (pySplit sep s).headD [] = s.takeWhile (fun c => c != sep) := by
  induction s with
  | nil => simp [pySplit]
  | cons c cs ih =>
      simp only [pySplit, List.takeWhile_cons]
      by_cases h : c = sep
      · simp [h]
      · simp only [h, if_false]
        cases hps : pySplit sep cs with
        | nil => exact absurd hps (pySplit_ne_nil sep cs)
        | cons r rs =>
            rw [hps] at ih
            simp only [List.headD_cons] at ih ⊢
            simp [h, ih]

theorem price_conversion_takeWhile (p : String) :
    Seller.price_conversion p =
      String.mk ((p.data.takeWhile (fun c => c != '.')).filter Char.isDigit) := by
  unfold Seller.price_conversion
  rw [pySplit_head]

namespace Seller

theorem create_stocksAux_acc_sub :
    ∀ (ws : List Watch) (offers : List String) (acc res : List StockRec) (rem : List String),
      create_stocksAux ws offers acc = some (res, rem) → ∀ x ∈ acc, x ∈ res := by
  intro ws
  induction ws with
  | nil =>
      intro offers acc res rem h x hx
      simp only [create_stocksAux, Option.some.injEq, Prod.mk.injEq] at h
      rw [← h.1]
      exact hx
  | cons w ws ih =>
      intro offers acc res rem h x hx
      simp only [create_stocksAux] at h
      by_cases hw : w.code ∈ offers
      · rw [if_pos hw] at h
        cases hsc : stockCount w.quantity with
        | none => rw [hsc] at h; cases h
        | some st =>
            rw [hsc] at h
            exact ih _ _ _ _ h x (List.mem_append_left _ hx)
      · rw [if_neg hw] at h
        exact ih _ _ _ _ h x hx

theorem create_stocksAux_spec :
    ∀ (ws : List Watch) (offers : List String) (acc res : List StockRec) (rem : List String),
      offers.Nodup →
      (acc.map StockRec.offer_id).Nodup →
      (∀ o ∈ acc.map StockRec.offer_id, o ∉ offers) →
      create_stocksAux ws offers acc = some (res, rem) →
      rem = offers.filter (fun o => decide (o ∉ ws.map Watch.code)) ∧
      (∀ o, o ∈ res.map StockRec.offer_id ↔
          o ∈ acc.map StockRec.offer_id ∨ (o ∈ offers ∧ o ∈ ws.map Watch.code)) ∧
      (res.map StockRec.offer_id).Nodup := by
  intro ws
  induction ws with
  | nil =>
      intro offers acc res rem hoff hacc hdisj h
      simp only [create_stocksAux, Option.some.injEq, Prod.mk.injEq] at h
      obtain ⟨h1, h2⟩ := h
      subst h1
      subst h2
      refine ⟨by simp, ?_, hacc⟩
      intro o
      simp
  | cons w ws ih =>
      intro offers acc res rem hoff hacc hdisj h
      simp only [create_stocksAux] at h
      by_cases hw : w.code ∈ offers
      · rw [if_pos hw] at h
        cases hsc : stockCount w.quantity with
        | none => rw [hsc] at h; cases h
        | some st =>
            rw [hsc] at h
            have hoff' : (offers.erase w.code).Nodup := hoff.erase _
            have hacc' : ((acc ++ [({ offer_id := w.code, stock := st } : StockRec)]).map
                StockRec.offer_id).Nodup := by
              simp only [List.map_append, List.map_cons, List.map_nil]
              rw [List.nodup_append]
              refine ⟨hacc, List.nodup_singleton _, ?_⟩
              intro o ho hmem
              simp only [List.mem_singleton] at hmem
              exact hdisj o ho (hmem ▸ hw)
            have hdisj' : ∀ o ∈ (acc ++ [({ offer_id := w.code, stock := st } : StockRec)]).map
                StockRec.offer_id, o ∉ offers.erase w.code := by
              intro o ho
              simp only [List.map_append, List.map_cons, List.map_nil, List.mem_append,
                List.mem_singleton] at ho
              rcases ho with ho | rfl
              · exact fun hmem => hdisj o ho (List.erase_subset _ _ hmem)
              · exact hoff.not_mem_erase
            obtain ⟨hrem, hiff, hnd⟩ := ih _ _ _ _ hoff' hacc' hdisj' h
            refine ⟨?_, ?_, hnd⟩
            · rw [hrem, hoff.erase_eq_filter w.code, List.filter_filter]
              apply List.filter_congr
              intro x _
              by_cases hxc : x = w.code
              · simp [hxc]
              · by_cases hxs : x ∈ ws.map Watch.code <;> simp [hxc, hxs]
            · intro o
              rw [hiff o]
              simp only [List.map_append, List.map_cons, List.map_nil, List.mem_append,
                List.mem_singleton, List.mem_cons, List.not_mem_nil, or_false,
                hoff.mem_erase_iff]
              constructor
              · rintro ((hA | hE) | ⟨⟨_, hQ⟩, hR⟩)
                · exact Or.inl hA
                · exact Or.inr ⟨hE ▸ hw, Or.inl hE⟩
                · exact Or.inr ⟨hQ, Or.inr hR⟩
              · rintro (hA | ⟨hQ, hE | hR⟩)
                · exact Or.inl (Or.inl hA)
                · exact Or.inl (Or.inr hE)
                · by_cases ho : o = w.code
                  · exact Or.inl (Or.inr ho)
                  · exact Or.inr ⟨⟨ho, hQ⟩, hR⟩
      · rw [if_neg hw] at h
        obtain ⟨hrem, hiff, hnd⟩ := ih _ _ _ _ hoff hacc hdisj h
        refine ⟨?_, ?_, hnd⟩
        · rw [hrem]
          apply List.filter_congr
          intro x hx
          have hxc : x ≠ w.code := fun he => hw (he ▸ hx)
          simp [hxc]
        · intro o
          rw [hiff o]
          simp only [List.map_cons, List.mem_cons]
          constructor
          · rintro (hA | ⟨hQ, hR⟩)
            · exact Or.inl hA
            · exact Or.inr ⟨hQ, Or.inr hR⟩
          · rintro (hA | ⟨hQ, hE | hR⟩)
            · exact Or.inl hA
            · exact absurd (hE ▸ hQ) hw
            · exact Or.inr ⟨hQ, hR⟩

end Seller

namespace Seller

theorem create_stocksAux_no_match :
    ∀ (ws : List Watch) (offers : List String) (acc : List StockRec),
      (∀ w ∈ ws, w.code ∉ offers) →
      create_stocksAux ws offers acc = some (acc, offers) := by
  intro ws
  induction ws with
  | nil => intro offers acc _; rfl
  | cons w ws ih =>
      intro offers acc h
      simp only [create_stocksAux]
      rw [if_neg (h w (List.mem_cons_self w ws))]
      exact ih offers acc (fun x hx => h x (List.mem_cons_of_mem w hx))

theorem create_stocksAux_total :
    ∀ (ws : List Watch) (offers : List String) (acc : List StockRec),
      (∀ r ∈ ws, (stockCount r.quantity).isSome) →
      (create_stocksAux ws offers acc).isSome := by
  intro ws
  induction ws with
  | nil => intro offers acc _; rfl
  | cons w ws ih =>
      intro offers acc h
      simp only [create_stocksAux]
      by_cases hw : w.code ∈ offers
      · rw [if_pos hw]
        have hs := h w (List.mem_cons_self w ws)
        cases hsc : stockCount w.quantity with
        | none => rw [hsc] at hs; cases hs
        | some st => exact ih _ _ (fun r hr => h r (List.mem_cons_of_mem w hr))
      · rw [if_neg hw]
        exact ih _ _ (fun r hr => h r (List.mem_cons_of_mem w hr))

theorem create_stocksAux_none :
    ∀ (ws : List Watch) (offers : List String) (acc : List StockRec),
      create_stocksAux ws offers acc = none →
      ∃ r ∈ ws, stockCount r.quantity = none := by
  intro ws
  induction ws with
  | nil => intro offers acc h; cases h
  | cons w ws ih =>
      intro offers acc h
      simp only [create_stocksAux] at h
      by_cases hw : w.code ∈ offers
      · rw [if_pos hw] at h
        cases hsc : stockCount w.quantity with
        | none => exact ⟨w, List.mem_cons_self w ws, hsc⟩
        | some st =>
            rw [hsc] at h
            obtain ⟨r, hr, hn⟩ := ih _ _ h
            exact ⟨r, List.mem_cons_of_mem w hr, hn⟩
      · rw [if_neg hw] at h
        obtain ⟨r, hr, hn⟩ := ih _ _ h
        exact ⟨r, List.mem_cons_of_mem w hr, hn⟩

theorem create_stocksAux_emits :
    ∀ (ws : List Watch) (offers : List String) (acc res : List StockRec) (rem : List String),
      (ws.map Watch.code).Nodup →
      create_stocksAux ws offers acc = some (res, rem) →
      ∀ r ∈ ws, r.code ∈ offers →
      ∃ v, stockCount r.quantity = some v ∧
        ({ offer_id := r.code, stock := v } : StockRec) ∈ res := by
  intro ws
  induction ws with
  | nil => intro offers acc res rem _ _ r hr; cases hr
  | cons w ws ih =>
      intro offers acc res rem hnd h r hr hrc
      simp only [List.map_cons, List.nodup_cons] at hnd
      simp only [create_stocksAux] at h
      rcases List.mem_cons.mp hr with rfl | hr2
      · rw [if_pos hrc] at h
        cases hsc : stockCount r.quantity with
        | none => rw [hsc] at h; cases h
        | some v =>
            rw [hsc] at h
            refine ⟨v, rfl, ?_⟩
            exact create_stocksAux_acc_sub _ _ _ _ _ h _
              (List.mem_append_right _ (List.mem_singleton_self _))
      · by_cases hw : w.code ∈ offers
        · rw [if_pos hw] at h
          cases hsc : stockCount w.quantity with
          | none => rw [hsc] at h; cases h
          | some st =>
              rw [hsc] at h
              have hne : r.code ≠ w.code := by
                intro he
                exact hnd.1 (he ▸ List.mem_map_of_mem Watch.code hr2)
              exact ih _ _ _ _ hnd.2 h r hr2 ((List.mem_erase_of_ne hne).mpr hrc)
        · rw [if_neg hw] at h
          exact ih _ _ _ _ hnd.2 h r hr2 hrc

theorem create_stocks_spec (w : List Watch) (ids : List String) (hnd : ids.Nodup)
    (s : List StockRec) (rem : List String) (h : create_stocks w ids = some (s, rem)) :
    rem = ids.filter (fun o => decide (o ∉ w.map Watch.code)) ∧
    (∀ o, o ∈ s.map StockRec.offer_id ↔ o ∈ ids) ∧
    (s.map StockRec.offer_id).Nodup ∧
    (∀ o ∈ ids, o ∉ w.map Watch.code → ({ offer_id := o, stock := 0 } : StockRec) ∈ s) := by
  unfold create_stocks at h
  cases haux : create_stocksAux w ids [] with
  | none => rw [haux] at h; cases h
  | some p =>
      obtain ⟨res, rest⟩ := p
      rw [haux] at h
      simp only [Option.some.injEq, Prod.mk.injEq] at h
      obtain ⟨hs, hrem⟩ := h
      subst hs
      subst hrem
      obtain ⟨hrest, hiff, hndres⟩ :=
        create_stocksAux_spec w ids [] res rest hnd (by simp) (by simp) haux
      have hmapz : (rest.map (fun o => ({ offer_id := o, stock := 0 } : StockRec))).map
          StockRec.offer_id = rest := by
        rw [List.map_map]
        exact List.map_id rest
      have hremmem : ∀ o, o ∈ rest ↔ o ∈ ids ∧ o ∉ w.map Watch.code := by
        intro o
        rw [hrest]
        simp [List.mem_filter]
      have hresmem : ∀ o, o ∈ res.map StockRec.offer_id ↔ o ∈ ids ∧ o ∈ w.map Watch.code := by
        intro o
        rw [hiff o]
        simp
      refine ⟨hrest, ?_, ?_, ?_⟩
      · intro o
        simp only [List.map_append, List.mem_append, hmapz, hresmem o, hremmem o]
        by_cases hc : o ∈ w.map Watch.code <;> simp [hc]
      · rw [List.map_append, List.nodup_append, hmapz]
        refine ⟨hndres, hrest ▸ hnd.filter _, ?_⟩
        intro o ho homem
        exact ((hremmem o).mp homem).2 ((hresmem o).mp ho).2
      · intro o ho hoc
        exact List.mem_append_right _
          (List.mem_map_of_mem _ ((hremmem o).mpr ⟨ho, hoc⟩))

theorem create_stocks_no_match (w : List Watch) (ids : List String)
    (h : ∀ r ∈ w, r.code ∉ ids) :
    create_stocks w ids = some (ids.map (fun o => ({ offer_id := o, stock := 0 } : StockRec)), ids) := by
  unfold create_stocks
  rw [create_stocksAux_no_match w ids [] h]
  simp

end Seller

namespace Seller

theorem create_stocks_total (w : List Watch) (ids : List String)
    (h : ∀ r ∈ w, (stockCount r.quantity).isSome) :
    (create_stocks w ids).isSome := by
  unfold create_stocks
  cases haux : create_stocksAux w ids [] with
  | none =>
      have hx := create_stocksAux_total w ids [] h
      rw [haux] at hx
      cases hx
  | some p =>
      obtain ⟨a, b⟩ := p
      rfl

theorem create_stocks_none (w : List Watch) (ids : List String)
    (h : create_stocks w ids = none) :
    ∃ r ∈ w, stockCount r.quantity = none := by
  unfold create_stocks at h
  cases haux : create_stocksAux w ids [] with
  | none => exact create_stocksAux_none w ids [] haux
  | some p =>
      obtain ⟨a, b⟩ := p
      rw [haux] at h
      cases h

theorem create_prices_empty (w : List Watch) (ids : List String)
    (h : ∀ r ∈ w, r.code ∉ ids) : (create_prices w ids).1 = [] := by
  simp only [create_prices]
  apply List.filterMap_eq_nil_iff.mpr
  intro r hr
  rw [if_neg (h r hr)]

end Seller

namespace Market

theorem market_create_stocksAux_total :
    ∀ (ws : List Watch) (offers : List String) (acc : List StockRec) (wh date : String),
      (∀ r ∈ ws, (Seller.stockCount r.quantity).isSome) →
      (create_stocksAux wh date ws offers acc).isSome := by
  intro ws
  induction ws with
  | nil => intro offers acc wh date _; rfl
  | cons w ws ih =>
      intro offers acc wh date h
      simp only [create_stocksAux]
      by_cases hw : w.code ∈ offers
      · rw [if_pos hw]
        have hs := h w (List.mem_cons_self w ws)
        cases hsc : Seller.stockCount w.quantity with
        | none => rw [hsc] at hs; cases hs
        | some st => exact ih _ _ wh date (fun r hr => h r (List.mem_cons_of_mem w hr))
      · rw [if_neg hw]
        exact ih _ _ wh date (fun r hr => h r (List.mem_cons_of_mem w hr))

theorem market_create_stocksAux_none :
    ∀ (ws : List Watch) (offers : List String) (acc : List StockRec) (wh date : String),
      create_stocksAux wh date ws offers acc = none →
      ∃ r ∈ ws, Seller.stockCount r.quantity = none := by
  intro ws
  induction ws with
  | nil => intro offers acc wh date h; cases h
  | cons w ws ih =>
      intro offers acc wh date h
      simp only [create_stocksAux] at h
      by_cases hw : w.code ∈ offers
      · rw [if_pos hw] at h
        cases hsc : Seller.stockCount w.quantity with
        | none => exact ⟨w, List.mem_cons_self w ws, hsc⟩
        | some st =>
            rw [hsc] at h
            obtain ⟨r, hr, hn⟩ := ih _ _ wh date h
            exact ⟨r, List.mem_cons_of_mem w hr, hn⟩
      · rw [if_neg hw] at h
        obtain ⟨r, hr, hn⟩ := ih _ _ wh date h
        exact ⟨r, List.mem_cons_of_mem w hr, hn⟩

theorem market_create_stocks_total (w : List Watch) (ids : List String) (wh date : String)
    (h : ∀ r ∈ w, (Seller.stockCount r.quantity).isSome) :
    (create_stocks w ids wh date).isSome := by
  unfold create_stocks
  cases haux : create_stocksAux wh date w ids [] with
  | none =>
      have hx := market_create_stocksAux_total w ids [] wh date h
      rw [haux] at hx
      cases hx
  | some p =>
      obtain ⟨a, b⟩ := p
      rfl

theorem market_create_stocks_none (w : List Watch) (ids : List String) (wh date : String)
    (h : create_stocks w ids wh date = none) :
    ∃ r ∈ w, Seller.stockCount r.quantity = none := by
  unfold create_stocks at h
  cases haux : create_stocksAux wh date w ids [] with
  | none => exact market_create_stocksAux_none w ids [] wh date haux
  | some p =>
      obtain ⟨a, b⟩ := p
      rw [haux] at h
      cases h

end Market

namespace Seller

theorem get_offer_idsAux_stop :
    ∀ (pages : List Page) (acc : List Product) (k : Nat),
      stopIdx pages acc.length = some k →
      get_offer_idsAux pages acc =
        some (acc ++ ((pages.take (k + 1)).map Page.items).flatten) := by
  intro pages
  induction pages with
  | nil => intro acc k h; cases h
  | cons p ps ih =>
      intro acc k h
      simp only [stopIdx] at h
      simp only [get_offer_idsAux]
      by_cases hc : p.total = acc.length + p.items.length
      · rw [if_pos hc] at h
        obtain rfl : (0 : Nat) = k := Option.some.inj h
        rw [if_pos (by rw [List.length_append]; exact hc)]
        simp
      · rw [if_neg hc] at h
        cases hs : stopIdx ps (acc.length + p.items.length) with
        | none => rw [hs] at h; cases h
        | some j =>
            rw [hs] at h
            simp only [Option.map_some'] at h
            obtain rfl : j + 1 = k := Option.some.inj h
            rw [if_neg (by rw [List.length_append]; exact hc)]
            have hih := ih (acc ++ p.items) j (by rw [List.length_append]; exact hs)
            rw [hih]
            simp [List.take_succ_cons, List.append_assoc]

theorem get_offer_ids_stop (pages : List Page) (k : Nat)
    (h : stopIdx pages 0 = some k) :
    get_offer_ids pages =
      some ((((pages.take (k + 1)).map Page.items).flatten).map Product.offer_id) := by
  unfold get_offer_ids
  rw [get_offer_idsAux_stop pages [] k h]
  simp

end Seller

namespace Market

theorem market_get_offer_idsAux_stop :
    ∀ (pages : List Page) (acc : List Entry) (k : Nat),
      stopIdx pages = some k →
      get_offer_idsAux pages acc =
        some (acc ++ ((pages.take (k + 1)).map Page.entries).flatten) := by
  intro pages
  induction pages with
  | nil => intro acc k h; cases h
  | cons p ps ih =>
      intro acc k h
      simp only [stopIdx] at h
      simp only [get_offer_idsAux]
      by_cases hc : p.nextPageToken = ""
      · rw [if_pos hc] at h
        obtain rfl : (0 : Nat) = k := Option.some.inj h
        rw [if_pos hc]
        simp
      · rw [if_neg hc] at h
        cases hs : stopIdx ps with
        | none => rw [hs] at h; cases h
        | some j =>
            rw [hs] at h
            simp only [Option.map_some'] at h
            obtain rfl : j + 1 = k := Option.some.inj h
            rw [if_neg hc]
            have hih := ih (acc ++ p.entries) j hs
            rw [hih]
            simp [List.take_succ_cons, List.append_assoc]

theorem market_get_offer_ids_stop (pages : List Page) (k : Nat)
    (h : stopIdx pages = some k) :
    get_offer_ids pages =
      some ((((pages.take (k + 1)).map Page.entries).flatten).map Entry.shopSku) := by
  unfold get_offer_ids
  rw [market_get_offer_idsAux_stop pages [] k h]
  simp

end Market

namespace Market

theorem market_create_prices_total :
    ∀ (ws : List Watch) (ids : List String),
      (∀ r ∈ ws, (pyInt? (Seller.price_conversion r.price)).isSome) →
      (create_prices ws ids).isSome := by
  intro ws
  induction ws with
  | nil => intro ids _; rfl
  | cons w ws ih =>
      intro ids h
      simp only [create_prices]
      by_cases hw : w.code ∈ ids
      · rw [if_pos hw]
        have hp := h w (List.mem_cons_self w ws)
        cases hpc : pyInt? (Seller.price_conversion w.price) with
        | none => rw [hpc] at hp; cases hp
        | some v =>
            have hih := ih ids (fun r hr => h r (List.mem_cons_of_mem w hr))
            cases hcp : create_prices ws ids with
            | none => rw [hcp] at hih; cases hih
            | some rest => simp
      · rw [if_neg hw]
        exact ih ids (fun r hr => h r (List.mem_cons_of_mem w hr))

theorem market_create_prices_none :
    ∀ (ws : List Watch) (ids : List String),
      create_prices ws ids = none →
      ∃ r ∈ ws, pyInt? (Seller.price_conversion r.price) = none := by
  intro ws
  induction ws with
  | nil => intro ids h; cases h
  | cons w ws ih =>
      intro ids h
      simp only [create_prices] at h
      by_cases hw : w.code ∈ ids
      · rw [if_pos hw] at h
        cases hpc : pyInt? (Seller.price_conversion w.price) with
        | none => exact ⟨w, List.mem_cons_self w ws, hpc⟩
        | some v =>
            rw [hpc] at h
            cases hcp : create_prices ws ids with
            | none =>
                obtain ⟨r, hr, hn⟩ := ih ids hcp
                exact ⟨r, List.mem_cons_of_mem w hr, hn⟩
            | some rest => rw [hcp] at h; cases h
      · rw [if_neg hw] at h
        obtain ⟨r, hr, hn⟩ := ih ids h
        exact ⟨r, List.mem_cons_of_mem w hr, hn⟩

end Market

/-! ### Additional helper facts -/

/-- The quantity policy fails exactly on a string that is neither
`">10"` nor `"1"` nor accepted by `int(...)`. -/
theorem stockCount_eq_none_iff (q : String) :
    Seller.stockCount q = none ↔ q ≠ ">10" ∧ q ≠ "1" ∧ pyInt? q = none := by
  unfold Seller.stockCount
  by_cases h1 : q = ">10" <;> by_cases h2 : q = "1" <;> simp [h1, h2]

/-! ### Claim theorems -/

/-- Claim C1: for every supplier-record list and every (duplicate-free, as
offer identifiers are unique per account) known offer-id list, the stock
list returned by `create_stocks` covers exactly the union of supplier
codes present in the known offer-id list and known offer ids with no
matching supplier record (the latter emitted with stock 0); no offer id
appears twice in the output and none outside the known set is
referenced. -/
theorem c1_create_stocks_coverage (w : List Watch) (ids : List String)
    (hnd : ids.Nodup) (s : List Seller.StockRec) (rem : List String)
    (h : Seller.create_stocks w ids = some (s, rem)) :
    (∀ o, o ∈ s.map Seller.StockRec.offer_id ↔
        (o ∈ w.map Watch.code ∧ o ∈ ids) ∨ (o ∈ ids ∧ o ∉ w.map Watch.code)) ∧
    (s.map Seller.StockRec.offer_id).Nodup ∧
    (∀ o ∈ ids, o ∉ w.map Watch.code →
        ({ offer_id := o, stock := 0 } : Seller.StockRec) ∈ s) := by
  obtain ⟨_, hiff, hnodup, hzero⟩ := Seller.create_stocks_spec w ids hnd s rem h
  refine ⟨?_, hnodup, hzero⟩
  intro o
  rw [hiff o]
  by_cases hc : o ∈ w.map Watch.code <;> simp [hc]

/-- Witness for C1 at the spec's concrete instance: offer ids
`["A","B","C"]` with supplier records `A ↦ ">10"`, `B ↦ "1"` yield
exactly `A:100, B:0, C:0`, and the output offer ids are duplicate-free. -/
theorem c1_create_stocks_coverage_witness :
    Seller.create_stocks [⟨"A", ">10", "p"⟩, ⟨"B", "1", "p"⟩] ["A", "B", "C"] =
      some ([⟨"A", 100⟩, ⟨"B", 0⟩, ⟨"C", 0⟩], ["C"]) ∧
    (([⟨"A", 100⟩, ⟨"B", 0⟩, ⟨"C", 0⟩] : List Seller.StockRec).map
        Seller.StockRec.offer_id).Nodup := by
  refine ⟨by decide, ?_⟩
  exact (c1_create_stocks_coverage [⟨"A", ">10", "p"⟩, ⟨"B", "1", "p"⟩] ["A", "B", "C"]
    (by decide) [⟨"A", 100⟩, ⟨"B", 0⟩, ⟨"C", 0⟩] ["C"] (by decide)).2.1

/-- Claim C2 (code bug): in `seller.main`'s stock-then-price sequence the
price pass receives the offer-id list already mutated by the stock pass,
so every supplier record that matched an original offer id has had its
id removed and the emitted price list is always empty — contradicting
the specified behaviour (one price record per supplier record matching
the original set). -/
theorem c2_main_price_pass_empty (w : List Watch) (ids : List String) (hnd : ids.Nodup)
    (stocks : List Seller.StockRec) (prices : List Seller.PriceRec)
    (h : Seller.mainStocksThenPrices w ids = some (stocks, prices)) :
    prices = [] := by
  unfold Seller.mainStocksThenPrices at h
  cases hcs : Seller.create_stocks w ids with
  | none => rw [hcs] at h; cases h
  | some p =>
      obtain ⟨st, rem⟩ := p
      rw [hcs] at h
      simp only [Option.some.injEq, Prod.mk.injEq] at h
      obtain ⟨_, h2⟩ := h
      obtain ⟨hrem, _, _, _⟩ := Seller.create_stocks_spec w ids hnd st rem hcs
      have hnomatch : ∀ r ∈ w, r.code ∉ rem := by
        intro r hr hmem
        rw [hrem, List.mem_filter] at hmem
        have hx := hmem.2
        simp only [decide_eq_true_eq] at hx
        exact hx (List.mem_map_of_mem Watch.code hr)
      rw [← h2]
      exact Seller.create_prices_empty w rem hnomatch

/-- Witness for C2 at the spec's end-to-end scenario (`offer ids
["X","Y"]`, one supplier record for `X`): the pipeline emits the correct
stocks but an empty price list, where the spec requires a price record
for `X`. -/
theorem c2_main_price_pass_empty_witness :
    Seller.mainStocksThenPrices [⟨"X", "5", "100.00 руб."⟩] ["X", "Y"] =
      some ([⟨"X", 5⟩, ⟨"Y", 0⟩], []) ∧ ([] : List Seller.PriceRec) = [] := by
  refine ⟨by decide, ?_⟩
  exact c2_main_price_pass_empty [⟨"X", "5", "100.00 руб."⟩] ["X", "Y"] (by decide)
    [⟨"X", 5⟩, ⟨"Y", 0⟩] [] (by decide)

/-- Claim C3: the quantity policy of `create_stocks` is `">10" ↦ 100`,
`"1" ↦ 0`, otherwise integer parse, and (for duplicate-free supplier
codes) every supplier record whose code is among the known offer ids has
its record with that stock count in the output. -/
theorem c3_stock_policy (w : List Watch) (ids : List String)
    (hcodes : (w.map Watch.code).Nodup)
    (s : List Seller.StockRec) (rem : List String)
    (h : Seller.create_stocks w ids = some (s, rem)) :
    Seller.stockCount ">10" = some 100 ∧
    Seller.stockCount "1" = some 0 ∧
    (∀ q, q ≠ ">10" → q ≠ "1" → Seller.stockCount q = pyInt? q) ∧
    (∀ r ∈ w, r.code ∈ ids →
      ∃ v, Seller.stockCount r.quantity = some v ∧
        ({ offer_id := r.code, stock := v } : Seller.StockRec) ∈ s) := by
  refine ⟨rfl, rfl, ?_, ?_⟩
  · intro q h1 h2
    simp [Seller.stockCount, h1, h2]
  · intro r hr hrc
    unfold Seller.create_stocks at h
    cases haux : Seller.create_stocksAux w ids [] with
    | none => rw [haux] at h; cases h
    | some p =>
        obtain ⟨res, rest⟩ := p
        rw [haux] at h
        simp only [Option.some.injEq, Prod.mk.injEq] at h
        obtain ⟨h1, _⟩ := h
        obtain ⟨v, hv, hmem⟩ :=
          Seller.create_stocksAux_emits w ids [] res rest hcodes haux r hr hrc
        exact ⟨v, hv, h1 ▸ List.mem_append_left _ hmem⟩

/-- Witness for C3 at the spec's example: offer ids `["X","Y"]` with one
supplier record `X ↦ "5"` yield `[{X,5},{Y,0}]`, and the matched record
is emitted with the parsed count. -/
theorem c3_stock_policy_witness :
    Seller.create_stocks [⟨"X", "5", "100.00 руб."⟩] ["X", "Y"] =
      some ([⟨"X", 5⟩, ⟨"Y", 0⟩], ["Y"]) ∧
    (∃ v, Seller.stockCount "5" = some v ∧
      ({ offer_id := "X", stock := v } : Seller.StockRec) ∈
        ([⟨"X", 5⟩, ⟨"Y", 0⟩] : List Seller.StockRec)) := by
  refine ⟨by decide, ?_⟩
  exact (c3_stock_policy [⟨"X", "5", "100.00 руб."⟩] ["X", "Y"] (by decide)
    [⟨"X", 5⟩, ⟨"Y", 0⟩] ["Y"] (by decide)).2.2.2 ⟨"X", "5", "100.00 руб."⟩
    (by decide) (by decide)

/-- Claim C4: for every list and chunk size `n > 0`, `divide` yields
exactly `⌈L/n⌉` chunks, concatenating them reproduces the input (hence
they are contiguous, non-overlapping and in order), every chunk but
possibly the last has length `n`, and every chunk has length at most
`n`. -/
theorem c4_divide_chunks {α : Type} (lst : List α) (n : Nat) (hn : 0 < n) :
    (Seller.divide lst n).length = (lst.length + n - 1) / n ∧
    (Seller.divide lst n).flatten = lst ∧
    (∀ c ∈ (Seller.divide lst n).dropLast, c.length = n) ∧
    (∀ c ∈ Seller.divide lst n, c.length ≤ n) :=
  ⟨Seller.divide_length lst n hn.ne', Seller.divide_flatten lst n hn.ne',
   Seller.divide_dropLast_length lst n hn.ne', Seller.divide_chunk_le lst n⟩

/-- Witness for C4 at `[1,2,3,4,5]` with `n = 2`: three chunks that
flatten back to the input. -/
theorem c4_divide_chunks_witness :
    Seller.divide [1, 2, 3, 4, 5] 2 = [[1, 2], [3, 4], [5]] ∧
    (Seller.divide [1, 2, 3, 4, 5] 2).length = (5 + 2 - 1) / 2 ∧
    (Seller.divide [1, 2, 3, 4, 5] 2).flatten = [1, 2, 3, 4, 5] := by
  refine ⟨by simp [Seller.divide], (c4_divide_chunks [1, 2, 3, 4, 5] 2 (by decide)).1,
    (c4_divide_chunks [1, 2, 3, 4, 5] 2 (by decide)).2.1⟩

/-- Claim C5: `price_conversion` returns the part of the string before
the first `'.'` with every non-digit removed, and returns the empty
string when that part holds no digit. -/
theorem c5_price_conversion (p : String) :
    Seller.price_conversion p =
      String.mk ((p.data.takeWhile (fun c => c != '.')).filter Char.isDigit) ∧
    ((p.data.takeWhile (fun c => c != '.')).all (fun c => !c.isDigit) →
      Seller.price_conversion p = "") := by
  refine ⟨price_conversion_takeWhile p, ?_⟩
  intro hall
  rw [price_conversion_takeWhile p]
  have hnil : (p.data.takeWhile (fun c => c != '.')).filter Char.isDigit = [] := by
    apply List.filter_eq_nil_iff.mpr
    intro c hc
    have hx := List.all_eq_true.mp hall c hc
    simp only [Bool.not_eq_true'] at hx
    simp [hx]
  rw [hnil]

/-- Witness for C5: the spec's example `"5'990.00 руб." ↦ "5990"`, and a
digit-free integer part maps to the empty string. -/
theorem c5_price_conversion_witness :
    Seller.price_conversion "5'990.00 руб." = "5990" ∧
    Seller.price_conversion "руб.00" = "" := by
  refine ⟨by decide, ?_⟩
  exact (c5_price_conversion "руб.00").2 (by decide)

/-- Claim C6: each pagination loop starts from an empty accumulation,
appends each served page's items in order, and — as soon as the provider
signals the stop condition (declared total reached for the seller
variant, empty next-page token for the market variant, at the first page
index where it holds) — returns exactly one offer identifier per
accumulated product, in the order received. -/
theorem c6_get_offer_ids_pagination :
    (∀ (pages : List Seller.Page) (k : Nat),
        Seller.stopIdx pages 0 = some k →
        Seller.get_offer_ids pages =
          some ((((pages.take (k + 1)).map Seller.Page.items).flatten).map
            Seller.Product.offer_id)) ∧
    (∀ (pages : List Market.Page) (k : Nat),
        Market.stopIdx pages = some k →
        Market.get_offer_ids pages =
          some ((((pages.take (k + 1)).map Market.Page.entries).flatten).map
            Market.Entry.shopSku)) :=
  ⟨Seller.get_offer_ids_stop, Market.market_get_offer_ids_stop⟩

/-- Witness for C6: a two-page run of each variant, stopping at the
second page, returns the concatenated offer ids in order. -/
theorem c6_get_offer_ids_pagination_witness :
    Seller.get_offer_ids [⟨[⟨"a"⟩, ⟨"b"⟩], 3, "c1"⟩, ⟨[⟨"c"⟩], 3, "c2"⟩] =
      some ["a", "b", "c"] ∧
    Market.get_offer_ids [⟨[⟨"a"⟩, ⟨"b"⟩], "t"⟩, ⟨[⟨"c"⟩], ""⟩] =
      some ["a", "b", "c"] := by
  constructor
  · rw [c6_get_offer_ids_pagination.1 [⟨[⟨"a"⟩, ⟨"b"⟩], 3, "c1"⟩, ⟨[⟨"c"⟩], 3, "c2"⟩] 1
      (by decide)]
    decide
  · rw [c6_get_offer_ids_pagination.2 [⟨[⟨"a"⟩, ⟨"b"⟩], "t"⟩, ⟨[⟨"c"⟩], ""⟩] 1
      (by decide)]
    decide

/-- Counterexample to C7 as stated: a matched supplier record whose
quantity `"1"` fully satisfies the quantity policy still makes the
market price builder raise, because its price `"abc.00 руб."` has no
digit before the first `'.'` and `int("")` fails — a failure outside the
claim's sole stated exception (a malformed quantity string). -/
theorem c7_counterexample :
    (∀ r ∈ [(⟨"B", "1", "abc.00 руб."⟩ : Watch)],
        (Seller.stockCount r.quantity).isSome) ∧
    Market.create_prices [(⟨"B", "1", "abc.00 руб."⟩ : Watch)] ["B"] = none := by
  exact ⟨by decide, by decide⟩

/-- Claim C7 as amended: the builders and the splitter never fail except
on malformed numeric input propagated as a parse error — the stock
builders of both variants fail exactly when a record's quantity is
neither `">10"` nor `"1"` nor a parseable integer, the market price
builder additionally fails when a matched record's converted price digit
string fails the integer parse (the seller price builder is total), and
the splitter always reproduces its input for `n > 0`. -/
theorem c7_builders_splitter_error_policy :
    (∀ (w : List Watch) (ids : List String),
        (∀ r ∈ w, (Seller.stockCount r.quantity).isSome) →
        (Seller.create_stocks w ids).isSome) ∧
    (∀ (w : List Watch) (ids : List String),
        Seller.create_stocks w ids = none →
        ∃ r ∈ w, r.quantity ≠ ">10" ∧ r.quantity ≠ "1" ∧ pyInt? r.quantity = none) ∧
    (∀ (w : List Watch) (ids : List String) (wh date : String),
        (∀ r ∈ w, (Seller.stockCount r.quantity).isSome) →
        (Market.create_stocks w ids wh date).isSome) ∧
    (∀ (w : List Watch) (ids : List String) (wh date : String),
        Market.create_stocks w ids wh date = none →
        ∃ r ∈ w, r.quantity ≠ ">10" ∧ r.quantity ≠ "1" ∧ pyInt? r.quantity = none) ∧
    (∀ (w : List Watch) (ids : List String),
        (∀ r ∈ w, (pyInt? (Seller.price_conversion r.price)).isSome) →
        (Market.create_prices w ids).isSome) ∧
    (∀ (w : List Watch) (ids : List String),
        Market.create_prices w ids = none →
        ∃ r ∈ w, pyInt? (Seller.price_conversion r.price) = none) ∧
    (∀ (lst : List Nat) (n : Nat), 0 < n → (Seller.divide lst n).flatten = lst) := by
  refine ⟨fun w ids h => Seller.create_stocks_total w ids h, ?_, ?_, ?_, ?_, ?_, ?_⟩
  · intro w ids h
    obtain ⟨r, hr, hn⟩ := Seller.create_stocks_none w ids h
    exact ⟨r, hr, (stockCount_eq_none_iff r.quantity).mp hn⟩
  · exact fun w ids wh date h => Market.market_create_stocks_total w ids wh date h
  · intro w ids wh date h
    obtain ⟨r, hr, hn⟩ := Market.market_create_stocks_none w ids wh date h
    exact ⟨r, hr, (stockCount_eq_none_iff r.quantity).mp hn⟩
  · exact fun w ids h => Market.market_create_prices_total w ids h
  · exact fun w ids h => Market.market_create_prices_none w ids h
  · exact fun lst n hn => Seller.divide_flatten lst n hn.ne'

/-- Witness for C7's amended statement: a well-formed run succeeds in
both stock variants and in the market price builder, a malformed
quantity `"x"` and a digit-less price are reported, and a concrete split
flattens back. -/
theorem c7_builders_splitter_error_policy_witness :
    (Seller.create_stocks [⟨"A", ">10", "p"⟩] ["A"]).isSome ∧
    (∃ r ∈ [(⟨"A", "x", "p"⟩ : Watch)],
        r.quantity ≠ ">10" ∧ r.quantity ≠ "1" ∧ pyInt? r.quantity = none) ∧
    (Market.create_stocks [⟨"A", ">10", "p"⟩] ["A"] "wh" "d").isSome ∧
    (Market.create_prices [(⟨"A", "1", "5.00"⟩ : Watch)] ["A"]).isSome ∧
    (∃ r ∈ [(⟨"B", "1", "abc.00 руб."⟩ : Watch)],
        pyInt? (Seller.price_conversion r.price) = none) ∧
    (Seller.divide [1, 2, 3] 2).flatten = [1, 2, 3] := by
  refine ⟨c7_builders_splitter_error_policy.1 [⟨"A", ">10", "p"⟩] ["A"] (by decide),
    c7_builders_splitter_error_policy.2.1 [⟨"A", "x", "p"⟩] ["A"] (by decide),
    c7_builders_splitter_error_policy.2.2.1 [⟨"A", ">10", "p"⟩] ["A"] "wh" "d" (by decide),
    c7_builders_splitter_error_policy.2.2.2.2.1 [⟨"A", "1", "5.00"⟩] ["A"] (by decide),
    c7_builders_splitter_error_policy.2.2.2.2.2.1 [⟨"B", "1", "abc.00 руб."⟩] ["B"]
      (by decide),
    c7_builders_splitter_error_policy.2.2.2.2.2.2 [1, 2, 3] 2 (by decide)⟩

/-- Counterexample to C8 as stated: running `create_stocks` twice "on
the same offer-id list" in the Python sense (the second call receives
the list object the first call mutated) yields different outputs — the
first run returns `[{A,100}]` and empties the list, the second returns
`[]`. -/
theorem c8_counterexample :
    Seller.create_stocks [⟨"A", ">10", "p"⟩] ["A"] = some ([⟨"A", 100⟩], []) ∧
    Seller.create_stocks [⟨"A", ">10", "p"⟩] [] = some ([], []) ∧
    ([⟨"A", 100⟩] : List Seller.StockRec) ≠ ([] : List Seller.StockRec) := by
  exact ⟨by decide, by decide, by decide⟩

/-- Claim C8 as amended: `create_prices` never mutates the offer-id
list, so a second run on the list it was given returns the same prices;
`create_stocks` rerun on the offer-id list mutated by a first successful
run returns exactly one zero-stock record per remaining unmatched id
(and leaves the list unchanged) — identical to the first run's output
only when no supplier record matched. -/
theorem c8_second_run (w : List Watch) (ids : List String) (hnd : ids.Nodup)
    (s : List Seller.StockRec) (rem : List String)
    (h : Seller.create_stocks w ids = some (s, rem)) :
    Seller.create_stocks w rem =
      some (rem.map (fun o => ({ offer_id := o, stock := 0 } : Seller.StockRec)), rem) ∧
    (Seller.create_prices w ((Seller.create_prices w ids).2)).1 =
      (Seller.create_prices w ids).1 := by
  obtain ⟨hrem, _, _, _⟩ := Seller.create_stocks_spec w ids hnd s rem h
  refine ⟨?_, rfl⟩
  apply Seller.create_stocks_no_match
  intro r hr hmem
  rw [hrem, List.mem_filter] at hmem
  have hx := hmem.2
  simp only [decide_eq_true_eq] at hx
  exact hx (List.mem_map_of_mem Watch.code hr)

/-- Witness for C8's amended statement at the counterexample input: the
second run on the emptied list returns no stock records. -/
theorem c8_second_run_witness :
    Seller.create_stocks [(⟨"A", ">10", "p"⟩ : Watch)] [] = some ([], []) := by
  have hx := (c8_second_run [⟨"A", ">10", "p"⟩] ["A"] (by decide)
    [⟨"A", 100⟩] [] (by decide)).1
  simpa using hx

/-- Claim C9: a successful `create_stocks` run leaves the caller's
offer-id list holding exactly the originally-known ids with no matching
supplier record (each matched id removed, no duplicates introduced),
while `create_prices` returns its offer-id list unchanged. -/
theorem c9_frame_effects (w : List Watch) (ids : List String) (hnd : ids.Nodup)
    (s : List Seller.StockRec) (rem : List String)
    (h : Seller.create_stocks w ids = some (s, rem)) :
    rem = ids.filter (fun o => decide (o ∉ w.map Watch.code)) ∧
    rem.Nodup ∧
    (∀ ids2 : List String, (Seller.create_prices w ids2).2 = ids2) := by
  obtain ⟨hrem, _, _, _⟩ := Seller.create_stocks_spec w ids hnd s rem h
  exact ⟨hrem, hrem ▸ hnd.filter _, fun _ => rfl⟩

/-- Witness for C9 at a concrete input: matched id `"A"` is removed,
unmatched `"B"` remains, and the price builder leaves its list
unchanged. -/
theorem c9_frame_effects_witness :
    (["B"] : List String) =
      ["A", "B"].filter (fun o => decide (o ∉ [(⟨"A", ">10", "p"⟩ : Watch)].map Watch.code)) ∧
    (Seller.create_prices [(⟨"A", ">10", "p"⟩ : Watch)] ["A", "B"]).2 = ["A", "B"] := by
  have hx := c9_frame_effects [⟨"A", ">10", "p"⟩] ["A", "B"] (by decide)
    [⟨"A", 100⟩, ⟨"B", 0⟩] ["B"] (by decide)
  exact ⟨hx.1, hx.2.2 ["A", "B"]⟩

/-- Claim C10: on a matched supplier record whose price has no digit
before the first `'.'`, the market price builder raises (integer parse
of the empty digit string, `none`), while the seller price builder
succeeds and emits a record whose price field is the empty string. -/
theorem c10_price_divergence :
    Market.create_prices [⟨"A", "1", "abc.00 руб."⟩] ["A"] = none ∧
    (Seller.create_prices [⟨"A", "1", "abc.00 руб."⟩] ["A"]).1 =
      [{ auto_action_enabled := "UNKNOWN", currency_code := "RUB", offer_id := "A",
         old_price := "0", price := "" }] ∧
    Seller.price_conversion "abc.00 руб." = "" := by
  exact ⟨by decide, by decide, by decide⟩
